import Mathlib

/-!
Verification development for the utility library in public/js/utilities/common.js.

The library has two families of helpers:
* numeric helpers (clamp, lerp, map, step, pulse, smoothstep, linstep),
  embedded here as functions on the rationals in namespace Common, with a
  second, IEEE-style embedding on an extended number type (NaN, infinities)
  in namespace JS for the claims where division by zero matters;
* object helpers (inherit, extend, deep), embedded as functions on
  association-list object models in namespaces Proto and ObjM.
-/

namespace Common

/-- clamp(a, b, x) = Math.max(a, Math.min(b, x)). -/
def clamp (a b x : ℚ) : ℚ := max a (min b x)

/-- lerp(a, b, t) = a + clamp(0, 1, t) * (b - a). -/
def lerp (a b t : ℚ) : ℚ := a + clamp 0 1 t * (b - a)

/-- map(a, b, c, d, x) = (x - a) / (b - a) * (d - c) + c. -/
def map (a b c d x : ℚ) : ℚ := (x - a) / (b - a) * (d - c) + c

/-- step(a, x) = x < a ? 0 : 1. -/
def step (a x : ℚ) : ℚ := if x < a then 0 else 1

/-- pulse(a, b, x) = step(a, x) - step(b, x). -/
def pulse (a b x : ℚ) : ℚ := step a x - step b x

/-- smoothstep(a, b, x): t = clamp(0, 1, (x - a) / (b - a)); t*t*t*((6*t-15)*t+10). -/
def smoothstep (a b x : ℚ) : ℚ :=
  let t := clamp 0 1 ((x - a) / (b - a))
  t * t * t * ((6 * t - 15) * t + 10)

/-- linstep(a, b, x) = clamp(0, 1, (x - a) / (b - a)). -/
def linstep (a b x : ℚ) : ℚ := clamp 0 1 ((x - a) / (b - a))

end Common

namespace JS

/-- JavaScript numbers as exact rationals extended with the two infinities and
NaN.  Rounding is not modelled; the special values follow the IEEE rules for
the operations the library uses. -/
inductive JSNum where
  | fin : ℚ → JSNum
  | pinf : JSNum
  | ninf : JSNum
  | nan : JSNum
deriving DecidableEq

open JSNum

/-- IEEE addition on extended numbers: NaN propagates, opposite infinities
give NaN. -/
def add : JSNum → JSNum → JSNum
  | nan, _ => nan
  | _, nan => nan
  | fin p, fin q => fin (p + q)
  | pinf, ninf => nan
  | ninf, pinf => nan
  | pinf, _ => pinf
  | _, pinf => pinf
  | ninf, _ => ninf
  | _, ninf => ninf

/-- IEEE subtraction on extended numbers: NaN propagates, like infinities
give NaN. -/
def sub : JSNum → JSNum → JSNum
  | nan, _ => nan
  | _, nan => nan
  | fin p, fin q => fin (p - q)
  | pinf, pinf => nan
  | ninf, ninf => nan
  | pinf, _ => pinf
  | ninf, _ => ninf
  | _, pinf => ninf
  | _, ninf => pinf

/-- IEEE multiplication on extended numbers: NaN propagates, zero times an
infinity gives NaN. -/
def mul : JSNum → JSNum → JSNum
  | nan, _ => nan
  | _, nan => nan
  | fin p, fin q => fin (p * q)
  | fin p, pinf => if p = 0 then nan else if 0 < p then pinf else ninf
  | pinf, fin q => if q = 0 then nan else if 0 < q then pinf else ninf
  | fin p, ninf => if p = 0 then nan else if 0 < p then ninf else pinf
  | ninf, fin q => if q = 0 then nan else if 0 < q then ninf else pinf
  | pinf, pinf => pinf
  | ninf, ninf => pinf
  | pinf, ninf => ninf
  | ninf, pinf => ninf

/-- IEEE division on extended numbers: NaN propagates, 0/0 and inf/inf give
NaN, nonzero/0 gives a signed infinity.  A finite zero divisor is treated as
+0, the only zero a finite subtraction can produce, which is the only way the
library divides. -/
def div : JSNum → JSNum → JSNum
  | nan, _ => nan
  | _, nan => nan
  | fin p, fin q =>
      if q = 0 then (if p = 0 then nan else if 0 < p then pinf else ninf)
      else fin (p / q)
  | fin _, pinf => fin 0
  | fin _, ninf => fin 0
  | pinf, fin q => if 0 ≤ q then pinf else ninf
  | ninf, fin q => if 0 ≤ q then ninf else pinf
  | pinf, _ => nan
  | ninf, _ => nan

/-- Math.min: NaN if either argument is NaN. -/
def minN : JSNum → JSNum → JSNum
  | nan, _ => nan
  | _, nan => nan
  | fin p, fin q => fin (min p q)
  | ninf, _ => ninf
  | _, ninf => ninf
  | pinf, y => y
  | x, pinf => x

/-- Math.max: NaN if either argument is NaN. -/
def maxN : JSNum → JSNum → JSNum
  | nan, _ => nan
  | _, nan => nan
  | fin p, fin q => fin (max p q)
  | pinf, _ => pinf
  | _, pinf => pinf
  | ninf, y => y
  | x, ninf => x

/-- clamp(a, b, x) = Math.max(a, Math.min(b, x)) on extended numbers. -/
def clamp (a b x : JSNum) : JSNum := maxN a (minN b x)

/-- linstep(a, b, x) = clamp(0, 1, (x - a) / (b - a)) on extended numbers. -/
def linstep (a b x : JSNum) : JSNum :=
  clamp (fin 0) (fin 1) (div (sub x a) (sub b a))

/-- smoothstep(a, b, x) on extended numbers, mirroring the source expression
t * t * t * ((6 * t - 15) * t + 10). -/
def smoothstep (a b x : JSNum) : JSNum :=
  let t := clamp (fin 0) (fin 1) (div (sub x a) (sub b a))
  mul (mul (mul t t) t) (add (mul (sub (mul (fin 6) t) (fin 15)) t) (fin 10))

/-- Whether an extended number is a finite value in the unit interval. -/
def inUnit : JSNum → Bool
  | fin q => decide (0 ≤ q) && decide (q ≤ 1)
  | _ => false

end JS

/-- Association-list read: the value at the first occurrence of a key, the
position property lookup finds in an object. -/
def getKey {α : Type} : List (String × α) → String → Option α
  | [], _ => none
  | (k', v) :: rest, k => if k' = k then some v else getKey rest k

/-- Association-list write: overwrite the first occurrence of the key in
place, or append the pair, matching JavaScript property assignment, which
keeps the insertion position of an existing key. -/
def setKey {α : Type} : List (String × α) → String → α → List (String × α)
  | [], k, v => [(k, v)]
  | (k', v') :: rest, k, v =>
      if k' = k then (k, v) :: rest else (k', v') :: setKey rest k v

/-- Left-biased choice on options, the combinator behind property shadowing:
the first component wins when it is present. -/
def firstSome {α : Type} : Option α → Option α → Option α
  | some v, _ => some v
  | none, o => o

/-- The value at the last occurrence of a key, which is what a sequence of
assignments in list order leaves behind. -/
def lastVal {α : Type} : List (String × α) → String → Option α
  | [], _ => none
  | (k', v) :: rest, k =>
      match lastVal rest k with
      | some w => some w
      | none => if k' = k then some v else none

namespace Proto

/-- Property values for the inheritance model: primitives and references to
constructor functions, identified by a numeric id. -/
inductive Val where
  | num : Int → Val
  | str : String → Val
  | ctorRef : Nat → Val
deriving DecidableEq

/-- An object is a table of own properties plus a prototype link; null ends
the chain. -/
inductive Obj where
  | null : Obj
  | node : List (String × Val) → Obj → Obj
deriving DecidableEq

/-- Property lookup along the prototype chain. -/
def lookup : Obj → String → Option Val
  | Obj.null, _ => none
  | Obj.node props proto, k =>
      match getKey props k with
      | some v => some v
      | none => lookup proto k

/-- Own-property lookup, ignoring the prototype chain. -/
def ownLookup : Obj → String → Option Val
  | Obj.null, _ => none
  | Obj.node props _, k => getKey props k

/-- Own-property assignment on an object. -/
def setProp : Obj → String → Val → Obj
  | Obj.null, _, _ => Obj.null
  | Obj.node props proto, k, v => Obj.node (setKey props k v) proto

/-- A constructor function: its identity, the own properties its body assigns
to the new instance, its prototype object, and the two accessors inherit
installs (absent before linking). -/
structure JSClass where
  ctorId : Nat
  ctorProps : List (String × Val)
  proto : Obj
  uber : Option Obj
  uberCtor : Option Nat
deriving DecidableEq

/-- Constructing an instance with new: a fresh object whose prototype link is
the prototype of the class and whose own properties are the ones the
constructor body assigns. -/
def newInstance (C : JSClass) : Obj := Obj.node C.ctorProps C.proto

/-- inherit(C, P): C.prototype becomes new F() where F is an empty-bodied
function with F.prototype = P.prototype, so the new prototype is an empty
object linked to P.prototype and the body of P never runs; the uber and
uberConstructor accessors are installed on C; finally
C.prototype.constructor = C. -/
def inherit (C P : JSClass) : JSClass :=
  { C with
    proto := setProp (Obj.node [] P.proto) "constructor" (Val.ctorRef C.ctorId),
    uber := some P.proto,
    uberCtor := some P.ctorId }

end Proto

namespace ObjM

/-- JavaScript values for the merge helpers: primitives, null, undefined and
objects as association lists. -/
inductive JSVal where
  | vnum : Int → JSVal
  | vstr : String → JSVal
  | vbool : Bool → JSVal
  | vnull : JSVal
  | vundef : JSVal
  | vobj : List (String × JSVal) → JSVal

/-- The instanceof Object test: true for objects, false for primitives, null
and undefined. -/
def isObj : JSVal → Bool
  | JSVal.vobj _ => true
  | _ => false

/-- One iteration of the outer loop of extend: if the source is an object,
assign each of its entries into the destination in order; otherwise leave the
destination untouched. -/
def extendObj (dst : List (String × JSVal)) (src : JSVal) : List (String × JSVal) :=
  match src with
  | JSVal.vobj es => es.foldl (fun d kv => setKey d kv.1 kv.2) dst
  | _ => dst

/-- extend(dst, src...): walk the source arguments left to right, copying the
keys of each object source into the destination, and return the destination. -/
def extend (dst : List (String × JSVal)) (srcs : List JSVal) : List (String × JSVal) :=
  srcs.foldl extendObj dst

/-- The value an extend source contributes for a key: its last occurrence if
the source is an object, nothing otherwise. -/
def srcVal : JSVal → String → Option JSVal
  | JSVal.vobj es, k => lastVal es k
  | _, _ => none

/-- The entries of a value when it is an object, used to read back the result
of deep. -/
def entriesD : JSVal → List (String × JSVal)
  | JSVal.vobj es => es
  | _ => []

mutual

/-- deep(d, s): for every key p of s, if d[p] and s[p] are both objects,
recurse into them, else assign s[p] to d[p].  A non-object source has no
enumerable keys, so the loop body never runs.  The mutated destination is
returned explicitly here; assignments to a primitive destination are silently
absorbed (a null destination, where JavaScript would throw, is treated the
same way and is kept out of every theorem below). -/
def deep (d s : JSVal) : JSVal :=
  match s with
  | JSVal.vobj ses => deepList d ses
  | _ => d
termination_by sizeOf s

/-- The loop of deep over the remaining entries of the source. -/
def deepList : JSVal → List (String × JSVal) → JSVal
  | dcur, [] => dcur
  | dcur, (p, sv) :: rest =>
      match dcur with
      | JSVal.vobj de =>
          match getKey de p with
          | some dv =>
              if isObj dv && isObj sv then
                deepList (JSVal.vobj (setKey de p (deep dv sv))) rest
              else deepList (JSVal.vobj (setKey de p sv)) rest
          | none => deepList (JSVal.vobj (setKey de p sv)) rest
      | _ => deepList dcur rest
termination_by _ l => sizeOf l

end

mutual

/-- Nesting depth of a value: objects add one level. -/
def depth : JSVal → Nat
  | JSVal.vobj es => 1 + depthList es
  | _ => 0
termination_by v => sizeOf v

/-- Largest nesting depth among the values of an entry list. -/
def depthList : List (String × JSVal) → Nat
  | [] => 0
  | (_, v) :: rest => max (depth v) (depthList rest)
termination_by l => sizeOf l

end

mutual

/-- deep instrumented with a recursion budget: each nested deep call consumes
one unit, and the computation reports failure when the budget runs out, the
way a bounded call stack would. -/
def deepFuel : Nat → JSVal → JSVal → Option JSVal
  | 0, _, _ => none
  | n + 1, d, s =>
      match s with
      | JSVal.vobj ses => deepFuelList n d ses
      | _ => some d
termination_by n _ s => (n, sizeOf s)

/-- The loop of deepFuel over the remaining entries of the source. -/
def deepFuelList : Nat → JSVal → List (String × JSVal) → Option JSVal
  | _, dcur, [] => some dcur
  | n, dcur, (p, sv) :: rest =>
      match dcur with
      | JSVal.vobj de =>
          match getKey de p with
          | some dv =>
              if isObj dv && isObj sv then
                match deepFuel n dv sv with
                | some r => deepFuelList n (JSVal.vobj (setKey de p r)) rest
                | none => none
              else deepFuelList n (JSVal.vobj (setKey de p sv)) rest
          | none => deepFuelList n (JSVal.vobj (setKey de p sv)) rest
      | _ => deepFuelList n dcur rest
termination_by n _ l => (n, sizeOf l)

end

/-- A chain of objects nested to the given depth under the key a, the finite
unfolding of a self-referential object. -/
def nestObj : Nat → JSVal
  | 0 => JSVal.vobj []
  | n + 1 => JSVal.vobj [("a", nestObj n)]

/-- The per-key reading of deep on an object destination: a key the source
does not mention keeps its destination value; a key it does mention gets the
source value, except that two object values are merged recursively. -/
def deepSpec (de l : List (String × JSVal)) (k : String) : Option JSVal :=
  match getKey l k with
  | none => getKey de k
  | some sv =>
      match getKey de k with
      | some dv => some (if isObj dv && isObj sv then deep dv sv else sv)
      | none => some sv

end ObjM

namespace Common

/-- The clamp to the unit interval lands in the unit interval. -/
theorem clamp01_bounds (y : ℚ) : 0 ≤ clamp 0 1 y ∧ clamp 0 1 y ≤ 1 := by
  unfold clamp
  constructor
  · exact le_max_left 0 (min 1 y)
  · exact max_le (by norm_num) (min_le_left 1 y)

/-- The clamp to the unit interval is monotone. -/
theorem clamp01_mono {y z : ℚ} (h : y ≤ z) : clamp 0 1 y ≤ clamp 0 1 z :=
  max_le_max le_rfl (min_le_min le_rfl h)

/-- The quintic t*t*t*((6*t-15)*t+10) is monotone non-decreasing on [0, 1]. -/
theorem smoothstep_poly_mono {s t : ℚ} (hs : 0 ≤ s) (hst : s ≤ t) (ht : t ≤ 1) :
    s * s * s * ((6 * s - 15) * s + 10) ≤ t * t * t * ((6 * t - 15) * t + 10) := by
  have h0t : 0 ≤ t := le_trans hs hst
  have hs1 : s ≤ 1 := le_trans hst ht
  have hq : 0 ≤ 6 * (t^4 + t^3*s + t^2*s^2 + t*s^3 + s^4)
      - 15 * (t^3 + t^2*s + t*s^2 + s^3) + 10 * (t^2 + t*s + s^2) := by
    nlinarith [sq_nonneg (t - s), sq_nonneg (t + s - 1), sq_nonneg (t + s),
      mul_nonneg (mul_nonneg hs h0t) (mul_nonneg hs h0t),
      mul_nonneg (sub_nonneg.mpr ht) (sub_nonneg.mpr hs1),
      mul_nonneg (mul_nonneg (sub_nonneg.mpr ht) (sub_nonneg.mpr hs1)) (mul_nonneg hs h0t),
      sq_nonneg (t * (1 - t)), sq_nonneg (s * (1 - s)), sq_nonneg (t * (1 - t) - s * (1 - s)),
      sq_nonneg (t * (1 - t) + s * (1 - s)), sq_nonneg (t * (1 - s) - s * (1 - t)),
      sq_nonneg (t * (1 - s) + s * (1 - t))]
  nlinarith [mul_nonneg (sub_nonneg.mpr hst) hq]

/-- The quintic t*t*t*((6*t-15)*t+10) maps [0, 1] into [0, 1]. -/
theorem smoothstep_poly_bounds {t : ℚ} (h0 : 0 ≤ t) (h1 : t ≤ 1) :
    0 ≤ t * t * t * ((6 * t - 15) * t + 10) ∧ t * t * t * ((6 * t - 15) * t + 10) ≤ 1 := by
  constructor
  · nlinarith [sq_nonneg t, sq_nonneg (t - 1), mul_nonneg (mul_nonneg h0 h0) h0]
  · nlinarith [sq_nonneg (1 - t), mul_nonneg (sub_nonneg.mpr h1) h0, sq_nonneg t,
      mul_nonneg (mul_nonneg (sub_nonneg.mpr h1) (sub_nonneg.mpr h1)) (sub_nonneg.mpr h1)]

/-- smoothstep always lands in [0, 1] over the rationals, because the clamp
runs before the polynomial. -/
theorem smoothstep_bounds (a b x : ℚ) :
    0 ≤ smoothstep a b x ∧ smoothstep a b x ≤ 1 := by
  have h := clamp01_bounds ((x - a) / (b - a))
  exact smoothstep_poly_bounds h.1 h.2

end Common

namespace JS

open JSNum

/-- Subtraction restricted to finite values. -/
theorem sub_fin (p q : ℚ) : sub (fin p) (fin q) = fin (p - q) := rfl

/-- Division restricted to finite values with a nonzero divisor. -/
theorem div_fin (p q : ℚ) (h : q ≠ 0) : div (fin p) (fin q) = fin (p / q) := by
  simp [div, h]

/-- Multiplication restricted to finite values. -/
theorem mul_fin (p q : ℚ) : mul (fin p) (fin q) = fin (p * q) := rfl

/-- Addition restricted to finite values. -/
theorem add_fin (p q : ℚ) : add (fin p) (fin q) = fin (p + q) := rfl

/-- The extended clamp agrees with the rational clamp on finite values. -/
theorem clamp_fin (a b x : ℚ) :
    clamp (fin a) (fin b) (fin x) = fin (Common.clamp a b x) := rfl

/-- On finite inputs with a different from b, the extended smoothstep agrees
with the rational one. -/
theorem smoothstep_fin (a b x : ℚ) (h : a ≠ b) :
    smoothstep (fin a) (fin b) (fin x) = fin (Common.smoothstep a b x) := by
  have hba : b - a ≠ 0 := sub_ne_zero.mpr (Ne.symm h)
  simp only [smoothstep, sub_fin, div_fin (x - a) (b - a) hba, clamp_fin, mul_fin,
    sub_fin, add_fin, Common.smoothstep]

/-- On finite inputs with a different from b, the extended linstep agrees with
the rational one. -/
theorem linstep_fin (a b x : ℚ) (h : a ≠ b) :
    linstep (fin a) (fin b) (fin x) = fin (Common.linstep a b x) := by
  have hba : b - a ≠ 0 := sub_ne_zero.mpr (Ne.symm h)
  simp only [linstep, sub_fin, div_fin (x - a) (b - a) hba, clamp_fin, Common.linstep]

end JS

/-- Reading back through a write: the written key returns the new value, any
other key is unaffected. -/
theorem getKey_setKey {α : Type} (l : List (String × α)) (k k' : String) (v : α) :
    getKey (setKey l k' v) k = if k' = k then some v else getKey l k := by
  induction l with
  | nil => simp [setKey, getKey]
  | cons hd tl ih =>
      obtain ⟨k₀, v₀⟩ := hd
      simp only [setKey]
      split_ifs with h1 h2 <;> simp_all [getKey]

/-- Folding the entry list of a source over the destination leaves, at each
key, the last value the source holds for it, or the prior destination value
when the source does not mention it. -/
theorem getKey_foldl_setKey {α : Type} (es : List (String × α)) (d : List (String × α))
    (k : String) :
    getKey (es.foldl (fun d kv => setKey d kv.1 kv.2) d) k =
      firstSome (lastVal es k) (getKey d k) := by
  induction es generalizing d with
  | nil => rfl
  | cons hd tl ih =>
      obtain ⟨k₀, v₀⟩ := hd
      rw [List.foldl_cons, ih]
      cases htl : lastVal tl k with
      | some w => simp [lastVal, htl, firstSome]
      | none =>
          simp only [lastVal, htl, getKey_setKey]
          by_cases h : k₀ = k <;> simp [h, firstSome]

/-- A single extend iteration over a non-object source is the identity. -/
theorem extendObj_skip (dst : List (String × ObjM.JSVal)) (s : ObjM.JSVal)
    (h : ObjM.isObj s = false) : ObjM.extendObj dst s = dst := by
  cases s <;> simp_all [ObjM.isObj, ObjM.extendObj]

/-- Reading the result of a single extend iteration. -/
theorem getKey_extendObj (dst : List (String × ObjM.JSVal)) (s : ObjM.JSVal) (k : String) :
    getKey (ObjM.extendObj dst s) k =
      firstSome (ObjM.srcVal s k) (getKey dst k) := by
  cases s with
  | vobj es =>
      simp only [ObjM.extendObj, ObjM.srcVal]
      exact getKey_foldl_setKey es dst k
  | vnum n => rfl
  | vstr sv => rfl
  | vbool b => rfl
  | vnull => rfl
  | vundef => rfl

/-- A key present in the destination stays present through extend. -/
theorem getKey_extend_isSome (srcs : List ObjM.JSVal) (dst : List (String × ObjM.JSVal))
    (k : String) (h : (getKey dst k).isSome = true) :
    (getKey (ObjM.extend dst srcs) k).isSome = true := by
  induction srcs generalizing dst with
  | nil => exact h
  | cons s rest ih =>
      refine ih (ObjM.extendObj dst s) ?_
      rw [getKey_extendObj]
      cases hs : ObjM.srcVal s k with
      | some v => rfl
      | none => exact h

/-- C3: extend processes its sources left to right; a non-object source is
skipped silently; every key of an object source ends up present in the
destination; on collision the rightmost source wins, the last source deciding
the final value of every key it holds; the destination itself is the value
returned (extend with no sources is the destination unchanged).  The three
documented examples are included verbatim. -/
theorem C3_extend_behavior :
    (∀ dst : List (String × ObjM.JSVal), ObjM.extend dst [] = dst) ∧
    (∀ (dst : List (String × ObjM.JSVal)) s srcs,
      ObjM.extend dst (s :: srcs) = ObjM.extend (ObjM.extendObj dst s) srcs) ∧
    (∀ (dst : List (String × ObjM.JSVal)) s, ObjM.isObj s = false →
      ObjM.extend dst [s] = dst) ∧
    (∀ (dst : List (String × ObjM.JSVal)) srcs s k,
      getKey (ObjM.extend dst (srcs ++ [s])) k =
        firstSome (ObjM.srcVal s k) (getKey (ObjM.extend dst srcs) k)) ∧
    (∀ (dst : List (String × ObjM.JSVal)) srcs s k, s ∈ srcs →
      (ObjM.srcVal s k).isSome = true →
      (getKey (ObjM.extend dst srcs) k).isSome = true) ∧
    (ObjM.extend [("x", ObjM.JSVal.vnum 1)] [ObjM.JSVal.vobj [("y", ObjM.JSVal.vnum 2)]] =
      [("x", ObjM.JSVal.vnum 1), ("y", ObjM.JSVal.vnum 2)]) ∧
    (ObjM.extend [("x", ObjM.JSVal.vnum 1)]
        [ObjM.JSVal.vobj [("x", ObjM.JSVal.vnum 2)], ObjM.JSVal.vobj [("x", ObjM.JSVal.vnum 3)]] =
      [("x", ObjM.JSVal.vnum 3)]) ∧
    (ObjM.extend [("x", ObjM.JSVal.vnum 1)] [ObjM.JSVal.vnull, ObjM.JSVal.vnum 5] =
      [("x", ObjM.JSVal.vnum 1)]) := by
  refine ⟨fun _ => rfl, fun _ _ _ => rfl, ?_, ?_, ?_, rfl, rfl, rfl⟩
  · intro dst s h
    show ObjM.extendObj dst s = dst
    exact extendObj_skip dst s h
  · intro dst srcs s k
    rw [ObjM.extend, List.foldl_append]
    exact getKey_extendObj _ s k
  · intro dst srcs s k hmem hsome
    obtain ⟨l1, l2, rfl⟩ := List.append_of_mem hmem
    rw [ObjM.extend, List.foldl_append, List.foldl_cons]
    refine getKey_extend_isSome l2 _ k ?_
    rw [getKey_extendObj]
    cases hs : ObjM.srcVal s k with
    | some v => rfl
    | none => rw [hs] at hsome; exact absurd hsome (by simp)

/-- C3 witness: a key of a singleton object source is present after extend
into an empty destination. -/
theorem C3_extend_behavior_witness :
    (getKey (ObjM.extend [] [ObjM.JSVal.vobj [("x", ObjM.JSVal.vnum 1)]]) "x").isSome = true :=
  C3_extend_behavior.2.2.2.2.1 [] [ObjM.JSVal.vobj [("x", ObjM.JSVal.vnum 1)]]
    (ObjM.JSVal.vobj [("x", ObjM.JSVal.vnum 1)]) "x" (List.mem_singleton.mpr rfl) rfl

/-- A key absent from the key list of an association list reads as nothing. -/
theorem getKey_none_of_not_mem {α : Type} (l : List (String × α)) (k : String)
    (h : k ∉ l.map Prod.fst) : getKey l k = none := by
  induction l with
  | nil => rfl
  | cons hd tl ih =>
      obtain ⟨k₀, v₀⟩ := hd
      simp only [List.map_cons, List.mem_cons] at h
      push_neg at h
      simp [getKey, Ne.symm h.1, ih h.2]

/-- Writing one key keeps every present key present. -/
theorem getKey_setKey_isSome {α : Type} (l : List (String × α)) (k k' : String) (v : α)
    (h : (getKey l k).isSome = true) : (getKey (setKey l k' v) k).isSome = true := by
  rw [getKey_setKey]
  by_cases hk : k' = k <;> simp [hk, h]

/-- One loop step of deep when the destination and source values at the key
are both objects: the recursive merge is written back. -/
theorem deepList_cons_rec (de : List (String × ObjM.JSVal)) (p : String)
    (sv dv : ObjM.JSVal) (rest : List (String × ObjM.JSVal))
    (hdp : getKey de p = some dv) (hio : (ObjM.isObj dv && ObjM.isObj sv) = true) :
    ObjM.deepList (ObjM.JSVal.vobj de) ((p, sv) :: rest) =
      ObjM.deepList (ObjM.JSVal.vobj (setKey de p (ObjM.deep dv sv))) rest := by
  simp [ObjM.deepList, hdp, hio]

/-- One loop step of deep when the recursion does not apply: the source value
is assigned. -/
theorem deepList_cons_asgn (de : List (String × ObjM.JSVal)) (p : String)
    (sv : ObjM.JSVal) (rest : List (String × ObjM.JSVal))
    (h : getKey de p = none ∨
      ∃ dv, getKey de p = some dv ∧ (ObjM.isObj dv && ObjM.isObj sv) = false) :
    ObjM.deepList (ObjM.JSVal.vobj de) ((p, sv) :: rest) =
      ObjM.deepList (ObjM.JSVal.vobj (setKey de p sv)) rest := by
  rcases h with h | ⟨dv, hdp, hio⟩
  · simp [ObjM.deepList, h]
  · simp [ObjM.deepList, hdp, hio]

/-- The loop of deep, read key by key: over a source entry list without
duplicate keys it realizes deepSpec. -/
theorem getKey_deepList (l : List (String × ObjM.JSVal)) :
    ∀ de k, (l.map Prod.fst).Nodup →
      getKey (ObjM.entriesD (ObjM.deepList (ObjM.JSVal.vobj de) l)) k =
        ObjM.deepSpec de l k := by
  induction l with
  | nil => intro de k _; simp [ObjM.deepList, ObjM.entriesD, ObjM.deepSpec, getKey]
  | cons pv rest ih =>
      obtain ⟨p, sv⟩ := pv
      intro de k hnd
      rw [List.map_cons, List.nodup_cons] at hnd
      have hrest : getKey rest p = none := getKey_none_of_not_mem rest p hnd.1
      cases hdp : getKey de p with
      | some dv =>
          cases hio : (ObjM.isObj dv && ObjM.isObj sv) with
          | true =>
              rw [deepList_cons_rec de p sv dv rest hdp hio, ih _ k hnd.2]
              by_cases hk : p = k
              · subst hk
                simp [ObjM.deepSpec, hrest, getKey_setKey, getKey, hdp, hio]
              · simp [ObjM.deepSpec, getKey, getKey_setKey, hk]
          | false =>
              rw [deepList_cons_asgn de p sv rest (Or.inr ⟨dv, hdp, hio⟩), ih _ k hnd.2]
              by_cases hk : p = k
              · subst hk
                simp [ObjM.deepSpec, hrest, getKey_setKey, getKey, hdp, hio]
              · simp [ObjM.deepSpec, getKey, getKey_setKey, hk]
      | none =>
          rw [deepList_cons_asgn de p sv rest (Or.inl hdp), ih _ k hnd.2]
          by_cases hk : p = k
          · subst hk
            simp [ObjM.deepSpec, hrest, getKey_setKey, getKey, hdp]
          · simp [ObjM.deepSpec, getKey, getKey_setKey, hk]

/-- The loop of deep never loses a present destination key. -/
theorem getKey_deepList_isSome (l : List (String × ObjM.JSVal)) :
    ∀ de k, (getKey de k).isSome = true →
      (getKey (ObjM.entriesD (ObjM.deepList (ObjM.JSVal.vobj de) l)) k).isSome = true := by
  induction l with
  | nil => intro de k h; simpa [ObjM.deepList, ObjM.entriesD] using h
  | cons pv rest ih =>
      obtain ⟨p, sv⟩ := pv
      intro de k h
      cases hdp : getKey de p with
      | some dv =>
          cases hio : (ObjM.isObj dv && ObjM.isObj sv) with
          | true =>
              rw [deepList_cons_rec de p sv dv rest hdp hio]
              exact ih _ k (getKey_setKey_isSome de k p _ h)
          | false =>
              rw [deepList_cons_asgn de p sv rest (Or.inr ⟨dv, hdp, hio⟩)]
              exact ih _ k (getKey_setKey_isSome de k p _ h)
      | none =>
          rw [deepList_cons_asgn de p sv rest (Or.inl hdp)]
          exact ih _ k (getKey_setKey_isSome de k p _ h)

/-- The loop of deep never touches a key the source does not mention. -/
theorem getKey_deepList_frame (l : List (String × ObjM.JSVal)) :
    ∀ de k, k ∉ l.map Prod.fst →
      getKey (ObjM.entriesD (ObjM.deepList (ObjM.JSVal.vobj de) l)) k = getKey de k := by
  induction l with
  | nil => intro de k _; simp [ObjM.deepList, ObjM.entriesD]
  | cons pv rest ih =>
      obtain ⟨p, sv⟩ := pv
      intro de k h
      simp only [List.map_cons, List.mem_cons] at h
      push_neg at h
      have hone : ∀ X, getKey (setKey de p X) k = getKey de k := by
        intro X
        rw [getKey_setKey]
        exact if_neg (Ne.symm h.1)
      cases hdp : getKey de p with
      | some dv =>
          cases hio : (ObjM.isObj dv && ObjM.isObj sv) with
          | true =>
              rw [deepList_cons_rec de p sv dv rest hdp hio, ih _ k h.2, hone]
          | false =>
              rw [deepList_cons_asgn de p sv rest (Or.inr ⟨dv, hdp, hio⟩), ih _ k h.2, hone]
      | none =>
          rw [deepList_cons_asgn de p sv rest (Or.inl hdp), ih _ k h.2, hone]

/-- Preservation of untouched destination keys through extend. -/
theorem getKey_extend_frame (srcs : List ObjM.JSVal) :
    ∀ (dst : List (String × ObjM.JSVal)) k, (∀ s ∈ srcs, ObjM.srcVal s k = none) →
      getKey (ObjM.extend dst srcs) k = getKey dst k := by
  induction srcs with
  | nil => intro dst k _; rfl
  | cons s rest ih =>
      intro dst k h
      show getKey (ObjM.extend (ObjM.extendObj dst s) rest) k = getKey dst k
      rw [ih _ k (fun t ht => h t (List.mem_cons_of_mem s ht)), getKey_extendObj,
        h s (List.mem_cons_self s rest)]
      rfl

/-- With a budget exceeding the nesting depth of the source, the budgeted
deep completes and agrees with the unbudgeted one. -/
theorem deepFuel_spec (fuel : Nat) :
    (∀ d s, ObjM.depth s < fuel → ObjM.deepFuel fuel d s = some (ObjM.deep d s)) ∧
    (∀ d l, ObjM.depthList l < fuel →
      ObjM.deepFuelList fuel d l = some (ObjM.deepList d l)) := by
  induction fuel with
  | zero =>
      exact ⟨fun d s h => absurd h (Nat.not_lt_zero _),
        fun d l h => absurd h (Nat.not_lt_zero _)⟩
  | succ n ih =>
      have hA : ∀ d s, ObjM.depth s < n + 1 →
          ObjM.deepFuel (n + 1) d s = some (ObjM.deep d s) := by
        intro d s h
        cases s with
        | vobj ses =>
            have he : ObjM.depth (ObjM.JSVal.vobj ses) = 1 + ObjM.depthList ses := by
              simp [ObjM.depth]
            rw [he] at h
            have h1 : ObjM.deepFuel (n + 1) d (ObjM.JSVal.vobj ses) =
                ObjM.deepFuelList n d ses := by
              simp [ObjM.deepFuel]
            have h2 : ObjM.deep d (ObjM.JSVal.vobj ses) = ObjM.deepList d ses := by
              simp [ObjM.deep]
            rw [h1, h2]
            exact ih.2 d ses (by omega)
        | vnum m => simp [ObjM.deepFuel, ObjM.deep]
        | vstr sv => simp [ObjM.deepFuel, ObjM.deep]
        | vbool b => simp [ObjM.deepFuel, ObjM.deep]
        | vnull => simp [ObjM.deepFuel, ObjM.deep]
        | vundef => simp [ObjM.deepFuel, ObjM.deep]
      refine ⟨hA, ?_⟩
      intro d l
      induction l generalizing d with
      | nil => intro _; simp [ObjM.deepFuelList, ObjM.deepList]
      | cons pv rest ihl =>
          obtain ⟨p, sv⟩ := pv
          intro h
          have hm : ObjM.depth sv < n + 1 ∧ ObjM.depthList rest < n + 1 :=
            max_lt_iff.mp (by simpa [ObjM.depthList] using h)
          cases d with
          | vobj de =>
              cases hdp : getKey de p with
              | some dv =>
                  cases hio : (ObjM.isObj dv && ObjM.isObj sv) with
                  | true =>
                      simp only [ObjM.deepFuelList, ObjM.deepList, hdp, hio,
                        hA dv sv hm.1]
                      exact ihl _ hm.2
                  | false =>
                      simp only [ObjM.deepFuelList, ObjM.deepList, hdp, hio]
                      simp only [Bool.false_eq_true, if_false]
                      exact ihl _ hm.2
              | none =>
                  simp only [ObjM.deepFuelList, ObjM.deepList, hdp]
                  exact ihl _ hm.2
          | vnum m =>
              simp only [ObjM.deepFuelList, ObjM.deepList]
              exact ihl _ hm.2
          | vstr s =>
              simp only [ObjM.deepFuelList, ObjM.deepList]
              exact ihl _ hm.2
          | vbool b =>
              simp only [ObjM.deepFuelList, ObjM.deepList]
              exact ihl _ hm.2
          | vnull =>
              simp only [ObjM.deepFuelList, ObjM.deepList]
              exact ihl _ hm.2
          | vundef =>
              simp only [ObjM.deepFuelList, ObjM.deepList]
              exact ihl _ hm.2

/-- Every nesting chain is an object. -/
theorem nestObj_isObj (n : Nat) : ObjM.isObj (ObjM.nestObj n) = true := by
  cases n <;> simp [ObjM.nestObj, ObjM.isObj]

/-- A source nested deeper than the budget exhausts it: the budgeted deep
fails on the depth-n chain with budget n, for every n. -/
theorem deepFuel_nestObj (n : Nat) :
    ObjM.deepFuel n (ObjM.nestObj n) (ObjM.nestObj n) = none := by
  induction n with
  | zero => simp [ObjM.deepFuel]
  | succ n ih =>
      simp [ObjM.deepFuel, ObjM.nestObj, ObjM.deepFuelList, getKey, nestObj_isObj, ih]

/-- C4: on an object destination and an object source without duplicate keys,
deep realizes the recursive union key by key: a key absent from the source is
untouched, a key present in both with object values on each side is merged
recursively in place, and any other key present in the source receives the
source value.  A non-object source has no keys, so deep changes nothing.  The
documented example on nested singletons is included. -/
theorem C4_deep_recursive_union :
    (∀ de ses k, (ses.map Prod.fst).Nodup →
      getKey (ObjM.entriesD (ObjM.deep (ObjM.JSVal.vobj de) (ObjM.JSVal.vobj ses))) k =
        ObjM.deepSpec de ses k) ∧
    (∀ d s, ObjM.isObj s = false → ObjM.deep d s = d) ∧
    (ObjM.deep (ObjM.JSVal.vobj [("a", ObjM.JSVal.vobj [("b", ObjM.JSVal.vnum 1)])])
        (ObjM.JSVal.vobj [("a", ObjM.JSVal.vobj [("c", ObjM.JSVal.vnum 2)])]) =
      ObjM.JSVal.vobj [("a", ObjM.JSVal.vobj [("b", ObjM.JSVal.vnum 1),
        ("c", ObjM.JSVal.vnum 2)])]) := by
  refine ⟨?_, ?_, ?_⟩
  · intro de ses k hnd
    have h : ObjM.deep (ObjM.JSVal.vobj de) (ObjM.JSVal.vobj ses) =
        ObjM.deepList (ObjM.JSVal.vobj de) ses := by
      simp [ObjM.deep]
    rw [h]
    exact getKey_deepList ses de k hnd
  · intro d s h
    cases s <;> simp_all [ObjM.isObj, ObjM.deep]
  · simp [ObjM.deep, ObjM.deepList, getKey, setKey, ObjM.isObj]

/-- C4 witness: the key-by-key reading at a one-key destination and one-key
source. -/
theorem C4_deep_recursive_union_witness :
    getKey (ObjM.entriesD (ObjM.deep (ObjM.JSVal.vobj [("a", ObjM.JSVal.vnum 1)])
        (ObjM.JSVal.vobj [("a", ObjM.JSVal.vnum 2)]))) "a" =
      ObjM.deepSpec [("a", ObjM.JSVal.vnum 1)] [("a", ObjM.JSVal.vnum 2)] "a" :=
  C4_deep_recursive_union.1 [("a", ObjM.JSVal.vnum 1)] [("a", ObjM.JSVal.vnum 2)] "a"
    (by simp)

/-- C5: deep terminates on every finite (acyclic) input, its recursion depth
bounded by the nesting depth of the source: with any budget exceeding that
depth, the budgeted deep completes with the same result.  No budget works for
every input: for each n the depth-n chain, the n-step unfolding of a
self-referential source, exhausts the budget n, so the unfolding of a cyclic
source exhausts every finite stack. -/
theorem C5_deep_termination :
    (∀ (d s : ObjM.JSVal) (fuel : Nat), ObjM.depth s < fuel →
      ObjM.deepFuel fuel d s = some (ObjM.deep d s)) ∧
    (∀ fuel : Nat, ObjM.deepFuel fuel (ObjM.nestObj fuel) (ObjM.nestObj fuel) = none) :=
  ⟨fun d s fuel h => (deepFuel_spec fuel).1 d s h, deepFuel_nestObj⟩

/-- C5 witness: a depth-1 source completes under budget 2. -/
theorem C5_deep_termination_witness :
    ObjM.deepFuel 2 (ObjM.JSVal.vobj []) (ObjM.JSVal.vobj [("a", ObjM.JSVal.vnum 1)]) =
      some (ObjM.deep (ObjM.JSVal.vobj []) (ObjM.JSVal.vobj [("a", ObjM.JSVal.vnum 1)])) :=
  C5_deep_termination.1 (ObjM.JSVal.vobj []) (ObjM.JSVal.vobj [("a", ObjM.JSVal.vnum 1)]) 2
    (by simp [ObjM.depth, ObjM.depthList])

/-- C10: neither merge helper ever deletes a top-level destination key, and a
destination key mentioned by no source keeps exactly its prior value: for
extend, presence is preserved through every source list and a key with no
contribution from any source reads unchanged; for deep on an object
destination, presence is preserved for any source, and any key outside the
keys of the source reads unchanged. -/
theorem C10_merge_frame :
    (∀ (dst : List (String × ObjM.JSVal)) srcs k, (getKey dst k).isSome = true →
      (getKey (ObjM.extend dst srcs) k).isSome = true) ∧
    (∀ (dst : List (String × ObjM.JSVal)) srcs k, (∀ s ∈ srcs, ObjM.srcVal s k = none) →
      getKey (ObjM.extend dst srcs) k = getKey dst k) ∧
    (∀ de s k, (getKey de k).isSome = true →
      (getKey (ObjM.entriesD (ObjM.deep (ObjM.JSVal.vobj de) s)) k).isSome = true) ∧
    (∀ de ses k, k ∉ ses.map Prod.fst →
      getKey (ObjM.entriesD (ObjM.deep (ObjM.JSVal.vobj de) (ObjM.JSVal.vobj ses))) k =
        getKey de k) := by
  refine ⟨fun dst srcs k h => getKey_extend_isSome srcs dst k h,
    fun dst srcs k h => getKey_extend_frame srcs dst k h, ?_, ?_⟩
  · intro de s k h
    cases s with
    | vobj ses =>
        have hd : ObjM.deep (ObjM.JSVal.vobj de) (ObjM.JSVal.vobj ses) =
            ObjM.deepList (ObjM.JSVal.vobj de) ses := by
          simp [ObjM.deep]
        rw [hd]
        exact getKey_deepList_isSome ses de k h
    | vnum m => simpa [ObjM.deep, ObjM.entriesD] using h
    | vstr sv => simpa [ObjM.deep, ObjM.entriesD] using h
    | vbool b => simpa [ObjM.deep, ObjM.entriesD] using h
    | vnull => simpa [ObjM.deep, ObjM.entriesD] using h
    | vundef => simpa [ObjM.deep, ObjM.entriesD] using h
  · intro de ses k h
    have hd : ObjM.deep (ObjM.JSVal.vobj de) (ObjM.JSVal.vobj ses) =
        ObjM.deepList (ObjM.JSVal.vobj de) ses := by
      simp [ObjM.deep]
    rw [hd]
    exact getKey_deepList_frame ses de k h

/-- C10 witness: a one-key destination keeps its key and value through an
extend with a disjoint source and through a deep with a disjoint source. -/
theorem C10_merge_frame_witness :
    (getKey (ObjM.extend [("x", ObjM.JSVal.vnum 1)]
      [ObjM.JSVal.vobj [("y", ObjM.JSVal.vnum 2)]]) "x").isSome = true ∧
    getKey (ObjM.entriesD (ObjM.deep (ObjM.JSVal.vobj [("x", ObjM.JSVal.vnum 1)])
      (ObjM.JSVal.vobj [("y", ObjM.JSVal.vnum 2)]))) "x" = getKey [("x", ObjM.JSVal.vnum 1)] "x" :=
  ⟨C10_merge_frame.1 [("x", ObjM.JSVal.vnum 1)] [ObjM.JSVal.vobj [("y", ObjM.JSVal.vnum 2)]]
      "x" rfl,
    C10_merge_frame.2.2.2 [("x", ObjM.JSVal.vnum 1)] [("y", ObjM.JSVal.vnum 2)] "x" (by simp)⟩

/-- C2: after inherit(C, P), linking never runs the body of P: the result
depends only on the prototype and identity of P, and the new prototype of C
carries no own property besides the constructor marker; that marker is C
itself, so a constructor-identity check on an instance built via C reports C,
not P; and a member of the prototype of P that C does not shadow resolves on
such an instance through the prototype chain.  The constructor body of C is
assumed not to assign a property literally named constructor. -/
theorem C2_inherit_linking (C P : Proto.JSClass)
    (hc : "constructor" ∉ C.ctorProps.map Prod.fst) :
    (∀ Q : Proto.JSClass, Q.proto = P.proto → Q.ctorId = P.ctorId →
      Proto.inherit C Q = Proto.inherit C P) ∧
    (∀ k, k ≠ "constructor" → Proto.ownLookup (Proto.inherit C P).proto k = none) ∧
    Proto.lookup (Proto.newInstance (Proto.inherit C P)) "constructor" =
      some (Proto.Val.ctorRef C.ctorId) ∧
    (∀ k v, k ∉ C.ctorProps.map Prod.fst → k ≠ "constructor" →
      Proto.lookup P.proto k = some v →
      Proto.lookup (Proto.newInstance (Proto.inherit C P)) k = some v) := by
  have hproto : (Proto.inherit C P).proto =
      Proto.Obj.node [("constructor", Proto.Val.ctorRef C.ctorId)] P.proto := rfl
  have hown : ∀ k, k ≠ "constructor" →
      Proto.ownLookup (Proto.inherit C P).proto k = none := by
    intro k hk
    rw [hproto]
    simp [Proto.ownLookup, getKey, Ne.symm hk]
  refine ⟨?_, hown, ?_, ?_⟩
  · intro Q h1 h2
    simp [Proto.inherit, h1, h2]
  · have hcp : getKey C.ctorProps "constructor" = none :=
      getKey_none_of_not_mem C.ctorProps "constructor" hc
    have hci : (Proto.inherit C P).ctorProps = C.ctorProps := rfl
    simp [Proto.newInstance, Proto.lookup, hci, hcp, hproto, getKey]
  · intro k v hk1 hk2 hp
    have hcp : getKey C.ctorProps k = none := getKey_none_of_not_mem C.ctorProps k hk1
    have hci : (Proto.inherit C P).ctorProps = C.ctorProps := rfl
    simp [Proto.newInstance, Proto.lookup, hci, hcp, hproto, getKey, Ne.symm hk2, hp]

/-- C2 witness: a parent whose constructor assigns pInit and whose prototype
holds greet, a child whose constructor assigns cOwn: after linking, the new
prototype of the child has no pInit, the instance reports constructor
identity 1 (the child), and greet resolves through the chain. -/
theorem C2_inherit_linking_witness :
    Proto.ownLookup (Proto.inherit
        ⟨1, [("cOwn", Proto.Val.num 2)], Proto.Obj.null, none, none⟩
        ⟨0, [("pInit", Proto.Val.num 7)],
          Proto.Obj.node [("greet", Proto.Val.str "hi")] Proto.Obj.null, none, none⟩).proto
      "pInit" = none ∧
    Proto.lookup (Proto.newInstance (Proto.inherit
        ⟨1, [("cOwn", Proto.Val.num 2)], Proto.Obj.null, none, none⟩
        ⟨0, [("pInit", Proto.Val.num 7)],
          Proto.Obj.node [("greet", Proto.Val.str "hi")] Proto.Obj.null, none, none⟩))
      "constructor" = some (Proto.Val.ctorRef 1) ∧
    Proto.lookup (Proto.newInstance (Proto.inherit
        ⟨1, [("cOwn", Proto.Val.num 2)], Proto.Obj.null, none, none⟩
        ⟨0, [("pInit", Proto.Val.num 7)],
          Proto.Obj.node [("greet", Proto.Val.str "hi")] Proto.Obj.null, none, none⟩))
      "greet" = some (Proto.Val.str "hi") := by
  obtain ⟨h1, h2, h3, h4⟩ := C2_inherit_linking
    ⟨1, [("cOwn", Proto.Val.num 2)], Proto.Obj.null, none, none⟩
    ⟨0, [("pInit", Proto.Val.num 7)],
      Proto.Obj.node [("greet", Proto.Val.str "hi")] Proto.Obj.null, none, none⟩
    (by decide)
  exact ⟨h2 "pInit" (by decide), h3,
    h4 "greet" (Proto.Val.str "hi") (by decide) (by decide) rfl⟩

/-- C1: the claim says pulse(a, b, x) is 1 throughout a <= x <= b, inclusive at
the upper endpoint, matching the documented example pulse(1, 3, 3) == 1.  The
code computes step(a, x) - step(b, x), and step(b, b) = 1, so pulse(1, 3, 3)
evaluates to 0 (and in general pulse is 1 only on the half-open interval):
the implementation contradicts its own documentation at x = b. -/
theorem C1_pulse_upper_endpoint_bug :
    Common.pulse 1 3 3 = 0 ∧ Common.pulse 1 3 2 = 1 := by
  constructor <;> norm_num [Common.pulse, Common.step]

/-- C6: for b > a, smoothstep(a, b, a) = 0, smoothstep(a, b, b) = 1, and
smoothstep(a, b, -) is monotone non-decreasing across [a, b], where smoothstep
clamps (x - a) / (b - a) to [0, 1] and applies t*t*t*((6*t-15)*t+10). -/
theorem C6_smoothstep_endpoints_mono (a b x y : ℚ) (hab : a < b) :
    Common.smoothstep a b a = 0 ∧ Common.smoothstep a b b = 1 ∧
    (a ≤ x → x ≤ y → y ≤ b → Common.smoothstep a b x ≤ Common.smoothstep a b y) := by
  have hba : (0:ℚ) < b - a := sub_pos.mpr hab
  refine ⟨?_, ?_, ?_⟩
  · simp [Common.smoothstep, Common.clamp]
  · rw [Common.smoothstep, div_self (ne_of_gt hba)]
    norm_num [Common.clamp]
  · intro _ hxy _
    have hdiv : (x - a) / (b - a) ≤ (y - a) / (b - a) :=
      (div_le_div_iff_of_pos_right hba).mpr (by linarith)
    have hmono := Common.clamp01_mono hdiv
    have hx := Common.clamp01_bounds ((x - a) / (b - a))
    have hy := Common.clamp01_bounds ((y - a) / (b - a))
    exact Common.smoothstep_poly_mono hx.1 hmono hy.2

/-- C6 witness: endpoints and monotonicity of smoothstep at a = 0, b = 1,
x = 1/4, y = 1/2. -/
theorem C6_smoothstep_endpoints_mono_witness :
    Common.smoothstep 0 1 0 = 0 ∧ Common.smoothstep 0 1 1 = 1 ∧
    Common.smoothstep 0 1 (1/4) ≤ Common.smoothstep 0 1 (1/2) := by
  obtain ⟨h0, h1, hm⟩ := C6_smoothstep_endpoints_mono 0 1 (1/4) (1/2) (by norm_num)
  exact ⟨h0, h1, hm (by norm_num) (by norm_num) (by norm_num)⟩

/-- C7: the claim says smoothstep(a, b, x) and linstep(a, b, x) return a value
in [0, 1] for every three numeric inputs, with no precondition.  It fails at
a = b = x = 0: the computed ratio is 0/0, which is NaN, the clamp propagates
NaN, and both functions return NaN, which is not in [0, 1]. -/
theorem C7_unit_interval_counterexample :
    JS.inUnit (JS.smoothstep (JS.JSNum.fin 0) (JS.JSNum.fin 0) (JS.JSNum.fin 0)) = false ∧
    JS.inUnit (JS.linstep (JS.JSNum.fin 0) (JS.JSNum.fin 0) (JS.JSNum.fin 0)) = false := by
  constructor <;>
    norm_num [JS.smoothstep, JS.linstep, JS.sub, JS.div, JS.clamp, JS.minN, JS.maxN,
      JS.mul, JS.add, JS.inUnit]

/-- C7 amended: for finite inputs with a different from b, smoothstep(a, b, x)
and linstep(a, b, x) each return a finite number in [0, 1]; when a = b = x both
return NaN instead. -/
theorem C7_unit_interval_amended (a b x : ℚ) (h : a ≠ b) :
    JS.inUnit (JS.smoothstep (JS.JSNum.fin a) (JS.JSNum.fin b) (JS.JSNum.fin x)) = true ∧
    JS.inUnit (JS.linstep (JS.JSNum.fin a) (JS.JSNum.fin b) (JS.JSNum.fin x)) = true := by
  rw [JS.smoothstep_fin a b x h, JS.linstep_fin a b x h]
  have hs := Common.smoothstep_bounds a b x
  have hl := Common.clamp01_bounds ((x - a) / (b - a))
  simp only [JS.inUnit, Bool.and_eq_true, decide_eq_true_eq]
  exact ⟨⟨hs.1, hs.2⟩, ⟨hl.1, hl.2⟩⟩

/-- C7 witness: the amended unit-interval property at a = 0, b = 1, x = 2. -/
theorem C7_unit_interval_amended_witness :
    JS.inUnit (JS.smoothstep (JS.JSNum.fin 0) (JS.JSNum.fin 1) (JS.JSNum.fin 2)) = true ∧
    JS.inUnit (JS.linstep (JS.JSNum.fin 0) (JS.JSNum.fin 1) (JS.JSNum.fin 2)) = true :=
  C7_unit_interval_amended 0 1 2 (by norm_num)

/-- C8: with a different from b, map(a, b, c, d, a) = c and map(a, b, c, d, b) = d,
where map(a, b, c, d, x) = (x - a) / (b - a) * (d - c) + c. -/
theorem C8_map_endpoints (a b c d : ℚ) (hab : a ≠ b) :
    Common.map a b c d a = c ∧ Common.map a b c d b = d := by
  have hba : b - a ≠ 0 := sub_ne_zero.mpr (Ne.symm hab)
  constructor
  · simp [Common.map]
  · field_simp [Common.map]

/-- C8 witness: the endpoint identities at a = 0, b = 1, c = 50, d = 100. -/
theorem C8_map_endpoints_witness :
    Common.map 0 1 50 100 0 = 50 ∧ Common.map 0 1 50 100 1 = 100 :=
  C8_map_endpoints 0 1 50 100 (by norm_num)

/-- C9: clamp(a, b, x) = max(a, min(b, x)) always; for a <= b it returns x on
[a, b], a below it and b above it; for a > b it returns a for every x. -/
theorem C9_clamp_characterization (a b x : ℚ) :
    Common.clamp a b x = max a (min b x) ∧
    (a ≤ b → a ≤ x → x ≤ b → Common.clamp a b x = x) ∧
    (a ≤ b → x < a → Common.clamp a b x = a) ∧
    (a ≤ b → b < x → Common.clamp a b x = b) ∧
    (b < a → Common.clamp a b x = a) := by
  refine ⟨rfl, ?_, ?_, ?_, ?_⟩ <;> intros <;>
    simp only [Common.clamp, max_def, min_def] <;> split_ifs <;> linarith

/-- C9 witness: the clamp characterization at a = 0, b = 5, x = 6 (and the
degenerate-order case at a = 5, b = 0, x = 3). -/
theorem C9_clamp_characterization_witness :
    Common.clamp 0 5 6 = 5 ∧ Common.clamp 5 0 3 = 5 := by
  refine ⟨(C9_clamp_characterization 0 5 6).2.2.2.1 (by norm_num) (by norm_num), ?_⟩
  exact (C9_clamp_characterization 5 0 3).2.2.2.2 (by norm_num)
